import Mathlib

/-!
# Verification of the go-docx placeholder parser

Shallow embedding of `placeholder.go` (package `docx`): the stack-based
cross-run placeholder matcher `ParsePlaceholders`, the `Placeholder`
accessors, and the delimiter utilities.

Modelling conventions:
* Document bytes and run texts are modelled at code-point granularity as
  `List Char` (the spec describes positions as "relative byte (or
  code-point) offsets"; the source scans `[]rune` of each run's text).
* The non-owning `*Run` back-reference held by a fragment is modelled as
  an index into the caller-provided run sequence (the arena-and-index
  pattern); pointer equality `run == fragment.Run` becomes index equality.
* The process-wide delimiter configuration (`OpenDelimiter`,
  `CloseDelimiter`), fixed for the duration of one parse, is modelled by
  the explicit parameters `od`/`cd` of every operation.
* `log.Printf` diagnostics are modelled as an explicit `Diag` output list.
* Go `int64` positions become `Int` (the sentinel end position is `-1`).
-/

/-- Modelled from the spec: a `Run` (external to `placeholder.go`) is an
opaque unit of text with a stable identifier and an absolute offset
(`textStart`) marking where its text payload begins in the document bytes;
`textLen` is the payload length, so the run can expose its text on demand
given the document bytes. -/
structure Run where
  id : Nat
  textStart : Nat
  textLen : Nat
  deriving Repr, DecidableEq

instance : Inhabited Run := ⟨⟨0, 0, 0⟩⟩

/-- Modelled from the spec: `run.GetText(docBytes)` extracts the run's
textual content from the document bytes. -/
def Run.GetText (r : Run) (db : List Char) : List Char :=
  (db.drop r.textStart).take r.textLen

/-- `Position` — a start/end offset pair relative to one run's text
(Go `int64`; the matcher uses `-1` as the "not yet closed" sentinel). -/
structure Position where
  Start : Int
  End : Int
  deriving Repr, DecidableEq

/-- Modelled from the spec: a `PlaceholderFragment` owns a `Position`,
references the run it belongs to (here: by index into the run sequence)
and carries the ordered list of runs it has spanned while open
(`SpanRun`, also by index). -/
structure PlaceholderFragment where
  Position : Position
  runIdx : Nat
  SpanRun : List Nat
  deriving Repr, DecidableEq

instance : Inhabited PlaceholderFragment := ⟨⟨⟨0, 0⟩, 0, []⟩⟩

/-- Modelled from the spec: `NewPlaceholderFragment(position, run)`
creates a fragment with the given position, bound to the given run,
with no spanned runs yet. -/
def NewPlaceholderFragment (pos : Position) (ri : Nat) : PlaceholderFragment :=
  ⟨pos, ri, []⟩

/-- `Placeholder` — an ordered sequence of fragments (placeholder.go). -/
structure Placeholder where
  Fragments : List PlaceholderFragment
  deriving Repr, DecidableEq

instance : Inhabited Placeholder := ⟨⟨[]⟩⟩

/-- One half-open slice `docBytes[a:b]` of the document bytes. -/
def sliceBytes (db : List Char) (a b : Int) : List Char :=
  (db.drop a.toNat).take (b.toNat - a.toNat)

/-- `Placeholder.Text`: assembles the fragments using the document bytes;
for each fragment it reads `docBytes[s+Start : s+End]` where `s` is the
fragment's run text start, and concatenates the pieces. -/
def Placeholder.Text (runs : List Run) (db : List Char) (p : Placeholder) : List Char :=
  (p.Fragments.map (fun f =>
    sliceBytes db (((runs.getD f.runIdx default).textStart : Int) + f.Position.Start)
      (((runs.getD f.runIdx default).textStart : Int) + f.Position.End))).flatten

/-- The two diagnostic notices `ParsePlaceholders` logs: an unmatched
close delimiter (run id, run text, index) and an unmatched open delimiter
left on the stack at end of scan (run id, run text, start index). -/
inductive Diag where
  | unmatchedClose (runId : Nat) (runText : List Char) (idx : Nat)
  | unmatchedOpen (runId : Nat) (runText : List Char) (startIdx : Int)
  deriving Repr, DecidableEq

/-- The matcher's state: the stack of open fragments (top at the head),
the placeholders emitted so far (in emission order) and the diagnostics
recorded so far. -/
structure ScanState where
  stack : List PlaceholderFragment
  placeholders : List Placeholder
  diags : List Diag
  deriving Repr, DecidableEq

/-- One character step of the scan loop body of `ParsePlaceholders`
(placeholder.go lines 73–129): open delimiter pushes a fresh fragment;
close delimiter with empty stack records a diagnostic; close delimiter
otherwise pops and emits a placeholder (same-run or cross-run shape);
any other character is skipped. Returns the new state and the updated
`hasDelimiter` flag. -/
def processChar (od cd : Char) (runs : List Run) (db : List Char)
    (ri : Nat) (r : Run) (i : Nat) (c : Char)
    (st : ScanState) (hasDelim : Bool) : ScanState × Bool :=
  if c = od then
    ({ st with stack := NewPlaceholderFragment ⟨(i : Int), -1⟩ ri :: st.stack }, true)
  else if c = cd then
    match st.stack with
    | [] =>
        ({ st with diags := st.diags ++ [Diag.unmatchedClose r.id (r.GetText db) i] },
          hasDelim)
    | fragment :: rest =>
        if fragment.runIdx = ri then
          let f : PlaceholderFragment :=
            { fragment with Position := { fragment.Position with End := (i : Int) + 1 } }
          ({ st with stack := rest, placeholders := st.placeholders ++ [⟨[f]⟩] }, true)
        else
          let birth := runs.getD fragment.runIdx default
          let f0 : PlaceholderFragment :=
            { fragment with Position :=
                { fragment.Position with End := ((birth.GetText db).length : Int) } }
          let mids := fragment.SpanRun.map (fun si =>
            NewPlaceholderFragment ⟨0, (((runs.getD si default).GetText db).length : Int)⟩ si)
          let fl := NewPlaceholderFragment ⟨0, (i : Int) + 1⟩ ri
          ({ st with
              stack := rest
              placeholders := st.placeholders ++ [⟨f0 :: (mids ++ [fl])⟩] }, true)
  else (st, hasDelim)

/-- The inner `for i` loop of `ParsePlaceholders`: scan the remaining
characters `cs` of the current run's text, `i` being the index of the
first of them. -/
def scanChars (od cd : Char) (runs : List Run) (db : List Char) (ri : Nat) (r : Run) :
    Nat → List Char → ScanState → Bool → ScanState × Bool
  | _, [], st, hd => (st, hd)
  | i, c :: cs, st, hd =>
      scanChars od cd runs db ri r (i + 1) cs
        (processChar od cd runs db ri r i c st hd).1
        (processChar od cd runs db ri r i c st hd).2

/-- One iteration of the outer run loop of `ParsePlaceholders`: scan the
run's text, then, if no delimiter was seen in this run, append the run to
the `SpanRun` list of every fragment still on the stack
(placeholder.go lines 70–139). -/
def processRun (od cd : Char) (runs : List Run) (db : List Char)
    (ri : Nat) (r : Run) (st : ScanState) : ScanState :=
  if (scanChars od cd runs db ri r 0 (r.GetText db) st false).2 then
    (scanChars od cd runs db ri r 0 (r.GetText db) st false).1
  else
    { (scanChars od cd runs db ri r 0 (r.GetText db) st false).1 with
      stack := (scanChars od cd runs db ri r 0 (r.GetText db) st false).1.stack.map
        (fun f => { f with SpanRun := f.SpanRun ++ [ri] }) }

/-- The outer run loop of `ParsePlaceholders`, with `ri` the index of the
first run of `rs` in the full run sequence. -/
def scanRunsAux (od cd : Char) (runs : List Run) (db : List Char) :
    Nat → List Run → ScanState → ScanState
  | _, [], st => st
  | ri, r :: rs, st =>
      scanRunsAux od cd runs db (ri + 1) rs (processRun od cd runs db ri r st)

/-- `ParsePlaceholders(runs, docBytes)` (placeholder.go lines 67–147).
Modelled from the spec in one respect: the input is the ordered sequence
of text-carrying runs (upstream pre-filters with `WithText`, whose
re-application inside `ParsePlaceholders` is the identity on such input).
Returns the emitted placeholders (in emission order), the diagnostics
(scan-time diagnostics followed by one unmatched-open notice per fragment
left on the stack, bottom first) and the error value, which the source
always returns as `nil`. -/
def ParsePlaceholders (od cd : Char) (runs : List Run) (db : List Char) :
    List Placeholder × List Diag × Option (List Char) :=
  let st := scanRunsAux od cd runs db 0 runs ⟨[], [], []⟩
  let finalDiags := st.diags ++ st.stack.reverse.map (fun f =>
    Diag.unmatchedOpen (runs.getD f.runIdx default).id
      ((runs.getD f.runIdx default).GetText db) f.Position.Start)
  (st.placeholders, finalDiags, none)

/-- `IsDelimitedPlaceholder(s)`: true iff `s` is non-empty and its first
character is the open delimiter and its last the close delimiter
(placeholder.go lines 170–180). -/
def IsDelimitedPlaceholder (od cd : Char) (s : List Char) : Bool :=
  if s.length < 1 then false
  else
    let first := s.headD ' '
    let last := s.getLastD ' '
    first == od && last == cd

/-- `AddPlaceholderDelimiter(s)` (placeholder.go lines 151–156). -/
def AddPlaceholderDelimiter (od cd : Char) (s : List Char) : List Char :=
  if IsDelimitedPlaceholder od cd s then s else od :: s ++ [cd]

/-- `strings.Trim(s, cutset)`: removes the leading and trailing runs of
characters drawn from `cutset` off both ends of `s`. -/
def trimChars (s : List Char) (cutset : List Char) : List Char :=
  ((s.dropWhile (fun c => cutset.contains c)).reverse.dropWhile
    (fun c => cutset.contains c)).reverse

/-- `RemovePlaceholderDelimiter(s)` (placeholder.go lines 160–165). -/
def RemovePlaceholderDelimiter (od cd : Char) (s : List Char) : List Char :=
  if !IsDelimitedPlaceholder od cd s then s
  else trimChars s [od, cd]

/-! ## Derived notions used by the statements -/

/-- A text is delimiter-free when it contains neither delimiter. -/
def DelimFree (od cd : Char) (t : List Char) : Prop :=
  ∀ c ∈ t, c ≠ od ∧ c ≠ cd

instance (od cd : Char) (t : List Char) : Decidable (DelimFree od cd t) := by
  unfold DelimFree; infer_instance

/-- The text of the run with index `j` in the run sequence. -/
def textOf (runs : List Run) (db : List Char) (j : Nat) : List Char :=
  (runs.getD j default).GetText db

/-- The scan position of a placeholder's closing delimiter: the index of
the run holding its last fragment, paired with that fragment's end
offset (one past the close delimiter). -/
def closeKey (p : Placeholder) : Nat × Int :=
  ((p.Fragments.getLastD default).runIdx, (p.Fragments.getLastD default).Position.End)

/-- Strict left-to-right order on close positions. -/
def keyLt (a b : Nat × Int) : Prop :=
  a.1 < b.1 ∨ (a.1 = b.1 ∧ a.2 < b.2)

/-- Reflexive left-to-right order on close positions. -/
def keyLe (a b : Nat × Int) : Prop :=
  a.1 < b.1 ∨ (a.1 = b.1 ∧ a.2 ≤ b.2)

/-- The concatenated text of a run sequence, in run order. -/
def runTexts (runs : List Run) (db : List Char) : List Char :=
  (runs.map (fun r => r.GetText db)).flatten

/-- Every aligned prefix of the text has at least as many open as close
delimiters (no close is left dangling at any point of the scan). -/
def PrefixBalanced (od cd : Char) (t : List Char) : Prop :=
  ∀ n, n ≤ t.length → (t.take n).count cd ≤ (t.take n).count od

instance (od cd : Char) (t : List Char) : Decidable (PrefixBalanced od cd t) := by
  unfold PrefixBalanced; infer_instance

/-- Invariant of a fragment on the matcher's stack while the scan is at
run `ri`, character index `i`: its start is a valid index into its birth
run's text, its end is still the sentinel, its birth run has already been
reached, a fragment born in the current run started strictly before the
current index, and every recorded span run is delimiter-free. -/
def FragInv (od cd : Char) (runs : List Run) (db : List Char)
    (ri i : Nat) (f : PlaceholderFragment) : Prop :=
  0 ≤ f.Position.Start ∧ f.Position.End = -1 ∧ f.runIdx ≤ ri ∧
  f.Position.Start < ((textOf runs db f.runIdx).length : Int) ∧
  (f.runIdx = ri → f.Position.Start < (i : Int)) ∧
  ∀ sr ∈ f.SpanRun, DelimFree od cd (textOf runs db sr)

/-- Structural well-formedness of an emitted placeholder: either a single
fragment with a non-inverted in-run position (same-run case), or a first
fragment closed against its birth run's full text length, middle
fragments covering their (delimiter-free) run's entire text, and a last
fragment starting at offset 0 whose end is one past a close delimiter of
its run; in the latter case the first and last runs differ. -/
def GoodP (od cd : Char) (runs : List Run) (db : List Char) (p : Placeholder) : Prop :=
  (∃ f, p.Fragments = [f] ∧ 0 ≤ f.Position.Start ∧ f.Position.Start < f.Position.End) ∨
  (∃ f0 mids fl, p.Fragments = f0 :: mids ++ [fl] ∧
    f0.runIdx ≠ fl.runIdx ∧
    0 ≤ f0.Position.Start ∧ f0.Position.Start < f0.Position.End ∧
    f0.Position.End = ((textOf runs db f0.runIdx).length : Int) ∧
    (∀ m ∈ mids, m.Position.Start = 0 ∧
      m.Position.End = ((textOf runs db m.runIdx).length : Int) ∧
      DelimFree od cd (textOf runs db m.runIdx)) ∧
    fl.Position.Start = 0 ∧ 0 < fl.Position.End ∧
    fl.Position.End ≤ ((textOf runs db fl.runIdx).length : Int) ∧
    (textOf runs db fl.runIdx)[fl.Position.End.toNat - 1]? = some cd)

/-! ## Step lemmas for the character scan -/

section ScanLemmas

variable {od cd : Char} {runs : List Run} {db : List Char} {ri : Nat} {r : Run}

theorem processChar_open {i : Nat} {c : Char} {st : ScanState} {hd : Bool}
    (h : c = od) :
    processChar od cd runs db ri r i c st hd =
      ({ st with stack := NewPlaceholderFragment ⟨(i : Int), -1⟩ ri :: st.stack }, true) := by
  simp [processChar, h]

theorem processChar_other {i : Nat} {c : Char} {st : ScanState} {hd : Bool}
    (h1 : c ≠ od) (h2 : c ≠ cd) :
    processChar od cd runs db ri r i c st hd = (st, hd) := by
  simp [processChar, h1, h2]

theorem processChar_close_nil {i : Nat} {c : Char} {st : ScanState} {hd : Bool}
    (h1 : c ≠ od) (h2 : c = cd) (hs : st.stack = []) :
    processChar od cd runs db ri r i c st hd =
      ({ st with diags := st.diags ++ [Diag.unmatchedClose r.id (r.GetText db) i] }, hd) := by
  subst h2
  cases st with
  | mk stack pls ds =>
    simp only [ScanState.stack] at hs
    subst hs
    simp [processChar, h1]

theorem processChar_close_same {i : Nat} {c : Char} {st : ScanState} {hd : Bool}
    {fragment : PlaceholderFragment} {rest : List PlaceholderFragment}
    (h1 : c ≠ od) (h2 : c = cd) (hs : st.stack = fragment :: rest)
    (h3 : fragment.runIdx = ri) :
    processChar od cd runs db ri r i c st hd =
      ({ st with
          stack := rest
          placeholders := st.placeholders ++
            [⟨[{ fragment with Position := { fragment.Position with End := (i : Int) + 1 } }]⟩] },
        true) := by
  subst h2
  cases st with
  | mk stack pls ds =>
    simp only [ScanState.stack] at hs
    subst hs
    simp [processChar, h1, h3]

theorem processChar_close_cross {i : Nat} {c : Char} {st : ScanState} {hd : Bool}
    {fragment : PlaceholderFragment} {rest : List PlaceholderFragment}
    (h1 : c ≠ od) (h2 : c = cd) (hs : st.stack = fragment :: rest)
    (h3 : fragment.runIdx ≠ ri) :
    processChar od cd runs db ri r i c st hd =
      ({ st with
          stack := rest
          placeholders := st.placeholders ++
            [⟨{ fragment with Position :=
                  { fragment.Position with
                    End := ((textOf runs db fragment.runIdx).length : Int) } } ::
                (fragment.SpanRun.map (fun si =>
                  NewPlaceholderFragment ⟨0, ((textOf runs db si).length : Int)⟩ si) ++
                  [NewPlaceholderFragment ⟨0, (i : Int) + 1⟩ ri])⟩] },
        true) := by
  subst h2
  cases st with
  | mk stack pls ds =>
    simp only [ScanState.stack] at hs
    subst hs
    simp [processChar, h1, h3, textOf]

theorem scanChars_nil {i : Nat} {st : ScanState} {hd : Bool} :
    scanChars od cd runs db ri r i [] st hd = (st, hd) := rfl

theorem scanChars_cons {i : Nat} {c : Char} {cs : List Char} {st : ScanState} {hd : Bool} :
    scanChars od cd runs db ri r i (c :: cs) st hd =
      scanChars od cd runs db ri r (i + 1) cs
        (processChar od cd runs db ri r i c st hd).1
        (processChar od cd runs db ri r i c st hd).2 := rfl

theorem processChar_snd_true {i : Nat} {c : Char} {st : ScanState} :
    (processChar od cd runs db ri r i c st true).2 = true := by
  by_cases h1 : c = od
  · simp [processChar, h1]
  · by_cases h2 : c = cd
    · cases hst : st.stack with
      | nil => rw [processChar_close_nil h1 h2 hst]
      | cons f rest =>
        by_cases h3 : f.runIdx = ri
        · rw [processChar_close_same h1 h2 hst h3]
        · rw [processChar_close_cross h1 h2 hst h3]
    · rw [processChar_other h1 h2]

theorem scanChars_snd_true :
    ∀ (cs : List Char) (i : Nat) (st : ScanState),
      (scanChars od cd runs db ri r i cs st true).2 = true := by
  intro cs
  induction cs with
  | nil => intro i st; rfl
  | cons c cs ih =>
    intro i st
    rw [scanChars_cons, processChar_snd_true]
    exact ih _ _

theorem scanChars_delimFree :
    ∀ (cs : List Char) (i : Nat) (st : ScanState) (hd : Bool),
      DelimFree od cd cs → scanChars od cd runs db ri r i cs st hd = (st, hd) := by
  intro cs
  induction cs with
  | nil => intro i st hd _; rfl
  | cons c cs ih =>
    intro i st hd hfree
    have hc := hfree c (by simp)
    rw [scanChars_cons, processChar_other hc.1 hc.2]
    exact ih _ _ _ (fun x hx => hfree x (List.mem_cons_of_mem _ hx))

theorem scanChars_false :
    ∀ (cs : List Char) (i : Nat) (st : ScanState),
      (scanChars od cd runs db ri r i cs st false).2 = false →
      (scanChars od cd runs db ri r i cs st false).1.stack = st.stack ∧
      (scanChars od cd runs db ri r i cs st false).1.placeholders = st.placeholders ∧
      (st.stack ≠ [] → DelimFree od cd cs) := by
  intro cs
  induction cs with
  | nil =>
    intro i st _
    exact ⟨rfl, rfl, fun _ => by intro x hx; cases hx⟩
  | cons c cs ih =>
    intro i st hfin
    by_cases h1 : c = od
    · rw [scanChars_cons, processChar_open h1, scanChars_snd_true] at hfin
      cases hfin
    · by_cases h2 : c = cd
      · cases hst : st.stack with
        | nil =>
          rw [scanChars_cons, processChar_close_nil h1 h2 hst] at hfin ⊢
          obtain ⟨hs, hp, _⟩ := ih (i + 1) _ hfin
          exact ⟨hs.trans hst, hp, fun hne => absurd rfl hne⟩
        | cons f rest =>
          by_cases h3 : f.runIdx = ri
          · rw [scanChars_cons, processChar_close_same h1 h2 hst h3,
              scanChars_snd_true] at hfin
            cases hfin
          · rw [scanChars_cons, processChar_close_cross h1 h2 hst h3,
              scanChars_snd_true] at hfin
            cases hfin
      · rw [scanChars_cons, processChar_other h1 h2] at hfin ⊢
        obtain ⟨hs, hp, hf⟩ := ih (i + 1) st hfin
        refine ⟨hs, hp, fun hne => ?_⟩
        intro x hx
        rcases List.mem_cons.mp hx with rfl | hx
        · exact ⟨h1, h2⟩
        · exact hf hne x hx

end ScanLemmas

/-! ## Diagnostics are pure output: shifting the diagnostics list -/

section DiagShift

variable {od cd : Char} {runs : List Run} {db : List Char} {ri : Nat} {r : Run}

theorem processChar_diags (i : Nat) (c : Char) (st : ScanState) (hd : Bool) (d : List Diag) :
    processChar od cd runs db ri r i c ⟨st.stack, st.placeholders, d ++ st.diags⟩ hd =
      (⟨(processChar od cd runs db ri r i c st hd).1.stack,
        (processChar od cd runs db ri r i c st hd).1.placeholders,
        d ++ (processChar od cd runs db ri r i c st hd).1.diags⟩,
        (processChar od cd runs db ri r i c st hd).2) := by
  by_cases h1 : c = od
  · simp only [processChar_open h1]
  · by_cases h2 : c = cd
    · cases hst : st.stack with
      | nil =>
        rw [processChar_close_nil h1 h2 hst,
          @processChar_close_nil od cd runs db ri r i c
            ⟨[], st.placeholders, d ++ st.diags⟩ hd h1 h2 rfl]
        simp [hst]
      | cons f rest =>
        by_cases h3 : f.runIdx = ri
        · rw [processChar_close_same h1 h2 hst h3,
            @processChar_close_same od cd runs db ri r i c
              ⟨f :: rest, st.placeholders, d ++ st.diags⟩ hd f rest h1 h2 rfl h3]
        · rw [processChar_close_cross h1 h2 hst h3,
            @processChar_close_cross od cd runs db ri r i c
              ⟨f :: rest, st.placeholders, d ++ st.diags⟩ hd f rest h1 h2 rfl h3]
    · simp only [processChar_other h1 h2]

theorem scanChars_diags :
    ∀ (cs : List Char) (i : Nat) (st : ScanState) (hd : Bool) (d : List Diag),
      scanChars od cd runs db ri r i cs ⟨st.stack, st.placeholders, d ++ st.diags⟩ hd =
        (⟨(scanChars od cd runs db ri r i cs st hd).1.stack,
          (scanChars od cd runs db ri r i cs st hd).1.placeholders,
          d ++ (scanChars od cd runs db ri r i cs st hd).1.diags⟩,
          (scanChars od cd runs db ri r i cs st hd).2) := by
  intro cs
  induction cs with
  | nil => intro i st hd d; rfl
  | cons c cs ih =>
    intro i st hd d
    rw [scanChars_cons, scanChars_cons, processChar_diags]
    exact ih _ _ _ _

theorem processRun_diags (st : ScanState) (d : List Diag) :
    processRun od cd runs db ri r ⟨st.stack, st.placeholders, d ++ st.diags⟩ =
      ⟨(processRun od cd runs db ri r st).stack,
        (processRun od cd runs db ri r st).placeholders,
        d ++ (processRun od cd runs db ri r st).diags⟩ := by
  unfold processRun
  rw [scanChars_diags]
  by_cases hb : (scanChars od cd runs db ri r 0 (r.GetText db) st false).2 <;> simp [hb]

theorem scanRunsAux_diags :
    ∀ (rs : List Run) (k : Nat) (st : ScanState) (d : List Diag),
      scanRunsAux od cd runs db k rs ⟨st.stack, st.placeholders, d ++ st.diags⟩ =
        ⟨(scanRunsAux od cd runs db k rs st).stack,
          (scanRunsAux od cd runs db k rs st).placeholders,
          d ++ (scanRunsAux od cd runs db k rs st).diags⟩ := by
  intro rs
  induction rs with
  | nil => intro k st d; rfl
  | cons r0 rs ih =>
    intro k st d
    simp only [scanRunsAux]
    rw [processRun_diags]
    exact ih _ _ _

end DiagShift

/-! ## Claims C4, C5, C6, C7, C8 -/

/-- **C4**: nesting within one run: on a single run whose text is
`foo{bar{bc}d}baz` under the default delimiters, `ParsePlaceholders`
emits exactly two placeholders whose `Text` values are `{bc}` and
`{bar{bc}d}`, in that order (inner before outer), the outer one
containing the inner delimiter characters literally. -/
theorem c4_nesting_single_run :
    ((ParsePlaceholders '{' '}' [⟨0, 0, 16⟩]
        ['f','o','o','{','b','a','r','{','b','c','}','d','}','b','a','z']).1.map
        (Placeholder.Text [⟨0, 0, 16⟩]
          ['f','o','o','{','b','a','r','{','b','c','}','d','}','b','a','z']) =
      [['{','b','c','}'], ['{','b','a','r','{','b','c','}','d','}']]) ∧
    (ParsePlaceholders '{' '}' [⟨0, 0, 16⟩]
        ['f','o','o','{','b','a','r','{','b','c','}','d','}','b','a','z']).1.length = 2 := by
  decide

/-- **C5**: unmatched delimiters are healed by omission with exactly one
diagnostic each: (1) a close delimiter scanned while the stack is empty
leaves the stack and the emitted placeholder list unchanged and appends
exactly one unmatched-close diagnostic naming the run and the index;
(2) the returned placeholder list is exactly the scan's emission list,
while the returned diagnostics add exactly one unmatched-open notice per
fragment left on the stack; (3) a concrete end-to-end run over the text
`}a{` returns no placeholders and exactly the two diagnostics. -/
theorem c5_unmatched_healing :
    (∀ (od cd : Char) (runs : List Run) (db : List Char) (ri : Nat) (r : Run)
        (i : Nat) (st : ScanState) (hd : Bool), od ≠ cd → st.stack = [] →
        processChar od cd runs db ri r i cd st hd =
          ({ st with diags := st.diags ++ [Diag.unmatchedClose r.id (r.GetText db) i] },
            hd)) ∧
    (∀ (od cd : Char) (runs : List Run) (db : List Char),
        (ParsePlaceholders od cd runs db).1 =
          (scanRunsAux od cd runs db 0 runs ⟨[], [], []⟩).placeholders ∧
        (ParsePlaceholders od cd runs db).2.1.length =
          (scanRunsAux od cd runs db 0 runs ⟨[], [], []⟩).diags.length +
            (scanRunsAux od cd runs db 0 runs ⟨[], [], []⟩).stack.length) ∧
    ParsePlaceholders '{' '}' [⟨7, 0, 3⟩] ['}', 'a', '{'] =
      ([], [Diag.unmatchedClose 7 ['}', 'a', '{'] 0,
            Diag.unmatchedOpen 7 ['}', 'a', '{'] 2], none) := by
  refine ⟨?_, ?_, by decide⟩
  · intro od cd runs db ri r i st hd hne hs
    exact processChar_close_nil (fun h => hne h.symm) rfl hs
  · intro od cd runs db
    constructor
    · rfl
    · show (_ ++ List.map _ _).length = _
      rw [List.length_append, List.length_map, List.length_reverse]

/-- Witness for C5: the unmatched-close step property applied at a
concrete input. -/
theorem c5_witness :
    ('{' : Char) ≠ '}' ∧ (⟨[], [], []⟩ : ScanState).stack = [] ∧
    processChar '{' '}' [] [] 0 ⟨0, 0, 0⟩ 0 '}' ⟨[], [], []⟩ false =
      (⟨[], [], [Diag.unmatchedClose 0 [] 0]⟩, false) :=
  ⟨by decide, rfl,
    c5_unmatched_healing.1 '{' '}' [] [] 0 ⟨0, 0, 0⟩ 0 ⟨[], [], []⟩ false (by decide) rfl⟩

/-- **C6**: `ParsePlaceholders` never returns a hard failure: the error
component is `nil` for every input, and the diagnostics are pure output —
running the scan with any initial diagnostics list changes nothing but
prepending it, so diagnostics never influence the stack or the returned
placeholder list. -/
theorem c6_never_fails :
    (∀ (od cd : Char) (runs : List Run) (db : List Char),
        (ParsePlaceholders od cd runs db).2.2 = none) ∧
    (∀ (od cd : Char) (runs : List Run) (db : List Char) (d : List Diag),
        scanRunsAux od cd runs db 0 runs ⟨[], [], d⟩ =
          ⟨(scanRunsAux od cd runs db 0 runs ⟨[], [], []⟩).stack,
            (scanRunsAux od cd runs db 0 runs ⟨[], [], []⟩).placeholders,
            d ++ (scanRunsAux od cd runs db 0 runs ⟨[], [], []⟩).diags⟩) := by
  constructor
  · intro od cd runs db; rfl
  · intro od cd runs db d
    have h := @scanRunsAux_diags od cd runs db runs 0 ⟨[], [], []⟩ d
    simpa using h

/-- **C7** counterexample: the round-trip fails as stated. The string
`}}abc` is not a delimited placeholder, but wrapping it and unwrapping it
yields `abc`, because `RemovePlaceholderDelimiter` trims the whole
leading and trailing runs of delimiter characters, not just the added
pair. -/
theorem c7_counterexample :
    IsDelimitedPlaceholder '{' '}' ['}', '}', 'a', 'b', 'c'] = false ∧
    RemovePlaceholderDelimiter '{' '}'
        (AddPlaceholderDelimiter '{' '}' ['}', '}', 'a', 'b', 'c']) ≠
      ['}', '}', 'a', 'b', 'c'] := by
  decide

/-- **C7** (amended): for every string whose first and last characters
(if any) are not delimiter characters — in particular it is then not a
delimited placeholder — removing the delimiters after adding them gives
back the original string. -/
theorem c7_roundtrip_amended (od cd : Char) (s : List Char)
    (h1 : ∀ x ∈ s.head?, x ≠ od ∧ x ≠ cd)
    (h2 : ∀ x ∈ s.getLast?, x ≠ od ∧ x ≠ cd) :
    RemovePlaceholderDelimiter od cd (AddPlaceholderDelimiter od cd s) = s := by
  cases s with
  | nil =>
    have hadd : AddPlaceholderDelimiter od cd [] = [od, cd] := by
      simp [AddPlaceholderDelimiter, IsDelimitedPlaceholder]
    have hisd : IsDelimitedPlaceholder od cd [od, cd] = true := by
      simp [IsDelimitedPlaceholder]
    rw [hadd, RemovePlaceholderDelimiter, hisd]
    simp [trimChars, List.dropWhile]
  | cons a t =>
    have ha := h1 a rfl
    have hnd : IsDelimitedPlaceholder od cd (a :: t) = false := by
      simp [IsDelimitedPlaceholder, ha.1]
    have hadd : AddPlaceholderDelimiter od cd (a :: t) = od :: (a :: t) ++ [cd] := by
      simp [AddPlaceholderDelimiter, hnd]
    have hisd : IsDelimitedPlaceholder od cd (od :: (a :: t) ++ [cd]) = true := by
      simp [IsDelimitedPlaceholder, List.getLast?_cons, List.getLastD_concat]
    rw [hadd, RemovePlaceholderDelimiter, hisd]
    simp only [Bool.not_true, Bool.false_eq_true, if_false]
    unfold trimChars
    have hpod : ([od, cd].contains od) = true := by simp
    have hpcd : ([od, cd].contains cd) = true := by simp
    have hpa : ([od, cd].contains a) = false := by simp [ha.1, ha.2]
    rw [List.cons_append, List.cons_append, List.dropWhile_cons]
    simp only [hpod, if_true]
    rw [List.dropWhile_cons]
    simp only [hpa, Bool.false_eq_true, if_false]
    rw [show (a :: (t ++ [cd])).reverse = (cd :: (a :: t).reverse : List Char) by
      rw [show (a :: (t ++ [cd])) = (a :: t) ++ [cd] from rfl, List.reverse_append]; rfl]
    rw [List.dropWhile_cons]
    simp only [hpcd, if_true]
    cases hr : (a :: t).reverse with
    | nil => exact absurd (List.reverse_eq_nil_iff.mp hr) (by simp)
    | cons b bs =>
      have hb : (a :: t).getLast? = some b := by
        rw [← List.head?_reverse, hr]; rfl
      have hB := h2 b hb
      have hpb : ([od, cd].contains b) = false := by simp [hB.1, hB.2]
      rw [List.dropWhile_cons]
      simp only [hpb, Bool.false_eq_true, if_false]
      rw [← hr, List.reverse_reverse]

/-- Witness for C7 (amended theorem): round-trip at `['a']`. -/
theorem c7_roundtrip_amended_witness :
    (∀ x ∈ (['a'] : List Char).head?, x ≠ '{' ∧ x ≠ '}') ∧
    (∀ x ∈ (['a'] : List Char).getLast?, x ≠ '{' ∧ x ≠ '}') ∧
    RemovePlaceholderDelimiter '{' '}' (AddPlaceholderDelimiter '{' '}' ['a']) = ['a'] :=
  ⟨by decide, by decide,
    c7_roundtrip_amended '{' '}' ['a'] (by decide) (by decide)⟩

/-- **C8**: `IsDelimitedPlaceholder` is true exactly on the non-empty
strings whose first character is the open delimiter and whose last is
the close delimiter, for every configured delimiter pair; `""` is not
delimited, `"{x}"` is, `"x"` is not, and a one-character string whose
sole character is both delimiters is delimited. -/
theorem c8_isDelimited_characterization :
    (∀ (od cd : Char) (s : List Char),
        IsDelimitedPlaceholder od cd s = true ↔
          s ≠ [] ∧ s.head? = some od ∧ s.getLast? = some cd) ∧
    IsDelimitedPlaceholder '{' '}' [] = false ∧
    IsDelimitedPlaceholder '{' '}' ['{', 'x', '}'] = true ∧
    IsDelimitedPlaceholder '{' '}' ['x'] = false ∧
    ∀ c : Char, IsDelimitedPlaceholder c c [c] = true := by
  refine ⟨?_, by decide, by decide, by decide, ?_⟩
  · intro od cd s
    cases s with
    | nil => simp [IsDelimitedPlaceholder]
    | cons a t =>
      have hg : (a :: t).getLast? = some ((a :: t).getLast (by simp)) :=
        List.getLast?_eq_getLast _ _
      simp [IsDelimitedPlaceholder, List.getLastD_eq_getLast?, hg]
  · intro c
    simp [IsDelimitedPlaceholder]

/-! ## Counting: balanced inputs produce one placeholder per pair (C1) -/

section CountLemmas

variable {od cd : Char} {runs : List Run} {db : List Char} {ri : Nat} {r : Run}

theorem processChar_close_pop {i : Nat} {c : Char} {st : ScanState} {hd : Bool}
    {fragment : PlaceholderFragment} {rest : List PlaceholderFragment}
    (h1 : c ≠ od) (h2 : c = cd) (hs : st.stack = fragment :: rest) :
    ∃ pl, processChar od cd runs db ri r i c st hd =
        ({ st with stack := rest, placeholders := st.placeholders ++ [pl] }, true) ∧
      closeKey pl = (ri, (i : Int) + 1) := by
  by_cases h3 : fragment.runIdx = ri
  · refine ⟨_, processChar_close_same h1 h2 hs h3, ?_⟩
    simp [closeKey, List.getLastD_cons, h3]
  · refine ⟨_, processChar_close_cross h1 h2 hs h3, ?_⟩
    simp [closeKey, List.getLast?_cons, List.getLastD_concat, NewPlaceholderFragment]

theorem scanChars_count (hne : od ≠ cd) :
    ∀ (cs : List Char) (i : Nat) (st : ScanState) (hd : Bool),
      (∀ k, k ≤ cs.length →
        (cs.take k).count cd ≤ st.stack.length + (cs.take k).count od) →
      (scanChars od cd runs db ri r i cs st hd).1.stack.length + cs.count cd
          = st.stack.length + cs.count od ∧
      (scanChars od cd runs db ri r i cs st hd).1.placeholders.length
          = st.placeholders.length + cs.count cd := by
  intro cs
  induction cs with
  | nil => intro i st hd _; simp [scanChars_nil]
  | cons c cs ih =>
    intro i st hd hpre
    have hcdod : cd ≠ od := fun h => hne h.symm
    by_cases h1 : c = od
    · rw [h1] at hpre ⊢
      rw [scanChars_cons, processChar_open rfl]
      dsimp only
      have hpre2 : ∀ k, k ≤ cs.length →
          (cs.take k).count cd ≤
            ({ st with
                stack := NewPlaceholderFragment ⟨(i : Int), -1⟩ ri ::
                  st.stack } : ScanState).stack.length + (cs.take k).count od := by
        intro k hk
        have h := hpre (k + 1) (by simpa using Nat.succ_le_succ hk)
        rw [List.take_succ_cons, List.count_cons_self,
          List.count_cons_of_ne hcdod] at h
        simp only [List.length_cons]
        omega
      have hih := ih (i + 1)
        ({ st with stack := NewPlaceholderFragment ⟨(i : Int), -1⟩ ri :: st.stack })
        true hpre2
      rw [List.count_cons_self, List.count_cons_of_ne hcdod]
      simp only [List.length_cons] at hih
      omega
    · by_cases h2 : c = cd
      · rw [h2] at h1 hpre ⊢
        have hone := hpre 1 (by simp)
        rw [List.take_succ_cons, List.take_zero, List.count_cons_self,
          List.count_cons_of_ne hne, List.count_nil] at hone
        cases hst : st.stack with
        | nil => rw [hst] at hone; simp at hone
        | cons f rest =>
          obtain ⟨pl, hp, -⟩ := processChar_close_pop h1 rfl hst
          rw [scanChars_cons, hp]
          dsimp only
          have hpre2 : ∀ k, k ≤ cs.length →
              (cs.take k).count cd ≤
                ({ st with stack := rest, placeholders := st.placeholders ++ [pl] } : ScanState).stack.length + (cs.take k).count od := by
            intro k hk
            have h := hpre (k + 1) (by simpa using Nat.succ_le_succ hk)
            rw [List.take_succ_cons, List.count_cons_self,
              List.count_cons_of_ne hne] at h
            rw [hst] at h
            simp only [List.length_cons] at h ⊢
            omega
          have hih := ih (i + 1)
            ({ st with stack := rest, placeholders := st.placeholders ++ [pl] })
            true hpre2
          rw [List.count_cons_self, List.count_cons_of_ne hne]
          simp only [List.length_append, List.length_cons, List.length_nil] at hih ⊢
          omega
      · rw [scanChars_cons, processChar_other h1 h2]
        dsimp only
        have hpre2 : ∀ k, k ≤ cs.length →
            (cs.take k).count cd ≤ st.stack.length + (cs.take k).count od := by
          intro k hk
          have h := hpre (k + 1) (by simpa using Nat.succ_le_succ hk)
          rw [List.take_succ_cons, List.count_cons_of_ne (fun hx => h2 hx.symm),
            List.count_cons_of_ne (fun hx => h1 hx.symm)] at h
          exact h
        have hih := ih (i + 1) st hd hpre2
        rw [List.count_cons_of_ne (fun hx => h2 hx.symm),
          List.count_cons_of_ne (fun hx => h1 hx.symm)]
        omega

end CountLemmas

section OuterCount

variable {od cd : Char} {runs : List Run} {db : List Char}

theorem processRun_components {ri : Nat} {r : Run} (st : ScanState) :
    (processRun od cd runs db ri r st).stack.length =
      (scanChars od cd runs db ri r 0 (r.GetText db) st false).1.stack.length ∧
    (processRun od cd runs db ri r st).placeholders =
      (scanChars od cd runs db ri r 0 (r.GetText db) st false).1.placeholders := by
  unfold processRun
  by_cases hb : (scanChars od cd runs db ri r 0 (r.GetText db) st false).2 <;> simp [hb]

theorem scanRunsAux_count (hne : od ≠ cd) :
    ∀ (rs : List Run) (k : Nat) (st : ScanState),
      (∀ n, n ≤ (runTexts rs db).length →
        ((runTexts rs db).take n).count cd ≤
          st.stack.length + ((runTexts rs db).take n).count od) →
      (scanRunsAux od cd runs db k rs st).stack.length + (runTexts rs db).count cd
          = st.stack.length + (runTexts rs db).count od ∧
      (scanRunsAux od cd runs db k rs st).placeholders.length
          = st.placeholders.length + (runTexts rs db).count cd := by
  intro rs
  induction rs with
  | nil => intro k st _; simp [scanRunsAux, runTexts]
  | cons r0 rs ih =>
    intro k st hpre
    have htxt : runTexts (r0 :: rs) db = r0.GetText db ++ runTexts rs db := by
      simp [runTexts]
    rw [htxt] at hpre ⊢
    simp only [scanRunsAux]
    have hpre1 : ∀ m, m ≤ (r0.GetText db).length →
        ((r0.GetText db).take m).count cd ≤
          st.stack.length + ((r0.GetText db).take m).count od := by
      intro m hm
      have h := hpre m (by simp only [List.length_append]; omega)
      rw [List.take_append_eq_append_take, Nat.sub_eq_zero_of_le hm, List.take_zero,
        List.append_nil] at h
      exact h
    have hin := @scanChars_count od cd runs db k r0 hne
      (r0.GetText db) 0 st false hpre1
    have hcomp := @processRun_components od cd runs db k r0 st
    have hst1 : (processRun od cd runs db k r0 st).stack.length +
        (r0.GetText db).count cd = st.stack.length + (r0.GetText db).count od := by
      rw [hcomp.1]; exact hin.1
    have hpl1 : (processRun od cd runs db k r0 st).placeholders.length
        = st.placeholders.length + (r0.GetText db).count cd := by
      rw [hcomp.2]; exact hin.2
    have hpre3 : ∀ n, n ≤ (runTexts rs db).length →
        ((runTexts rs db).take n).count cd ≤
          (processRun od cd runs db k r0 st).stack.length +
            ((runTexts rs db).take n).count od := by
      intro n hn
      have h := hpre ((r0.GetText db).length + n)
        (by simp only [List.length_append]; omega)
      rw [List.take_append_eq_append_take,
        List.take_of_length_le (by omega),
        Nat.add_sub_cancel_left (r0.GetText db).length n,
        List.count_append, List.count_append] at h
      omega
    have hih := ih (k + 1) (processRun od cd runs db k r0 st) hpre3
    rw [List.count_append, List.count_append]
    omega

end OuterCount

/-! ## Emission order: close positions are strictly increasing (C1) -/

section OrderLemmas

variable {od cd : Char} {runs : List Run} {db : List Char} {ri : Nat} {r : Run}

theorem keyLe_mono {a : Nat × Int} {k : Nat} {x y : Int}
    (h : keyLe a (k, x)) (hxy : x ≤ y) : keyLe a (k, y) := by
  rcases h with h | ⟨he, hle⟩
  · exact Or.inl h
  · exact Or.inr ⟨he, le_trans hle hxy⟩

theorem keyLe_keyLt {a : Nat × Int} {k : Nat} {x y : Int}
    (h : keyLe a (k, x)) (hxy : x < y) : keyLt a (k, y) := by
  rcases h with h | ⟨he, hle⟩
  · exact Or.inl h
  · exact Or.inr ⟨he, lt_of_le_of_lt hle hxy⟩

theorem keyLe_nextRun {a : Nat × Int} {k : Nat} {x y : Int}
    (h : keyLe a (k, x)) : keyLe a (k + 1, y) := by
  rcases h with h | ⟨he, _⟩
  · exact Or.inl (Nat.lt_succ_of_lt h)
  · exact Or.inl (by omega)

theorem scanChars_order :
    ∀ (cs : List Char) (i : Nat) (st : ScanState) (hd : Bool),
      (∀ p ∈ st.placeholders, keyLe (closeKey p) (ri, (i : Int))) →
      List.Pairwise (fun p q => keyLt (closeKey p) (closeKey q)) st.placeholders →
      (∀ p ∈ (scanChars od cd runs db ri r i cs st hd).1.placeholders,
          keyLe (closeKey p) (ri, ((i + cs.length : Nat) : Int))) ∧
      List.Pairwise (fun p q => keyLt (closeKey p) (closeKey q))
        (scanChars od cd runs db ri r i cs st hd).1.placeholders := by
  intro cs
  induction cs with
  | nil =>
    intro i st hd hb hp
    rw [scanChars_nil]
    exact ⟨fun p hm => by simpa using hb p hm, hp⟩
  | cons c cs ih =>
    intro i st hd hb hp
    have hlen : ((i + (c :: cs).length : Nat) : Int) = (((i + 1) + cs.length : Nat) : Int) := by
      simp only [List.length_cons]; push_cast; ring
    rw [hlen]
    have hstep : ∀ p ∈ st.placeholders, keyLe (closeKey p) (ri, ((i + 1 : Nat) : Int)) := by
      intro p hm
      exact keyLe_mono (hb p hm) (by push_cast; omega)
    by_cases h1 : c = od
    · rw [scanChars_cons, processChar_open h1]
      exact ih (i + 1) _ true hstep hp
    · by_cases h2 : c = cd
      · cases hst : st.stack with
        | nil =>
          rw [scanChars_cons, processChar_close_nil h1 h2 hst]
          exact ih (i + 1) _ hd hstep hp
        | cons f rest =>
          obtain ⟨pl, hpp, hkey⟩ := processChar_close_pop h1 h2 hst
          rw [scanChars_cons, hpp]
          refine ih (i + 1) _ true ?_ ?_
          · intro p hm
            rcases List.mem_append.mp hm with hm | hm
            · exact hstep p hm
            · rcases List.mem_singleton.mp hm with rfl
              rw [hkey]
              exact Or.inr ⟨rfl, by push_cast; omega⟩
          · rw [List.pairwise_append]
            refine ⟨hp, List.pairwise_singleton _ _, ?_⟩
            intro a ha b hbm
            rcases List.mem_singleton.mp hbm with rfl
            rw [hkey]
            exact keyLe_keyLt (hb a ha) (by omega)
      · rw [scanChars_cons, processChar_other h1 h2]
        exact ih (i + 1) st hd hstep hp

theorem scanRunsAux_order :
    ∀ (rs : List Run) (k : Nat) (st : ScanState),
      (∀ p ∈ st.placeholders, keyLe (closeKey p) (k, 0)) →
      List.Pairwise (fun p q => keyLt (closeKey p) (closeKey q)) st.placeholders →
      (∀ p ∈ (scanRunsAux od cd runs db k rs st).placeholders,
          keyLe (closeKey p) (k + rs.length, 0)) ∧
      List.Pairwise (fun p q => keyLt (closeKey p) (closeKey q))
        (scanRunsAux od cd runs db k rs st).placeholders := by
  intro rs
  induction rs with
  | nil =>
    intro k st hb hp
    exact ⟨fun p hm => by simpa using hb p hm, hp⟩
  | cons r0 rs ih =>
    intro k st hb hp
    have hlen : k + (r0 :: rs).length = (k + 1) + rs.length := by
      simp only [List.length_cons]; omega
    rw [hlen]
    simp only [scanRunsAux]
    have hcomp := @processRun_components od cd runs db k r0 st
    have hin := @scanChars_order od cd runs db k r0 (r0.GetText db) 0 st false
      (fun p hm => by simpa using hb p hm) hp
    refine ih (k + 1) _ ?_ ?_
    · intro p hm
      rw [hcomp.2] at hm
      exact keyLe_nextRun (hin.1 p (by simpa using hm))
    · rw [hcomp.2]
      exact hin.2

end OrderLemmas

/-- **C1**: for every run sequence whose concatenated text has correctly
nested delimiters with none dangling (every prefix has at least as many
opens as closes, and totals agree), `ParsePlaceholders` returns exactly
`N` placeholders, `N` being the number of delimiter pairs, and the
returned list is strictly increasing in the position (run index, end
offset) of each placeholder's closing delimiter — i.e. emission follows
the left-to-right order in which the closing delimiters were scanned. -/
theorem c1_balanced_count_and_order (od cd : Char) (runs : List Run) (db : List Char)
    (hne : od ≠ cd)
    (hpre : PrefixBalanced od cd (runTexts runs db))
    (hbal : (runTexts runs db).count cd = (runTexts runs db).count od) :
    (ParsePlaceholders od cd runs db).1.length = (runTexts runs db).count od ∧
    List.Pairwise (fun p q => keyLt (closeKey p) (closeKey q))
      (ParsePlaceholders od cd runs db).1 := by
  have hc := @scanRunsAux_count od cd runs db hne runs 0 ⟨[], [], []⟩
    (fun n hn => by simpa using hpre n hn)
  have ho := @scanRunsAux_order od cd runs db runs 0 ⟨[], [], []⟩ (by simp) (by simp)
  constructor
  · show (scanRunsAux od cd runs db 0 runs ⟨[], [], []⟩).placeholders.length = _
    have h2 := hc.2
    simp only [ScanState.placeholders, List.length_nil] at h2
    omega
  · exact ho.2

/-- Witness for C1 at the nested single-run input `foo{bar{bc}d}baz`. -/
theorem c1_witness :
    ('{' : Char) ≠ '}' ∧
    PrefixBalanced '{' '}'
      (runTexts [⟨0, 0, 16⟩]
        ['f','o','o','{','b','a','r','{','b','c','}','d','}','b','a','z']) ∧
    (ParsePlaceholders '{' '}' [⟨0, 0, 16⟩]
        ['f','o','o','{','b','a','r','{','b','c','}','d','}','b','a','z']).1.length =
      (runTexts [⟨0, 0, 16⟩]
        ['f','o','o','{','b','a','r','{','b','c','}','d','}','b','a','z']).count '{' :=
  ⟨by decide, by decide,
    (c1_balanced_count_and_order '{' '}' [⟨0, 0, 16⟩]
      ['f','o','o','{','b','a','r','{','b','c','}','d','}','b','a','z']
      (by decide) (by decide) (by decide)).1⟩

/-! ## Structural invariants of the scan (C3, C9, C10) -/

theorem getD_of_drop {α : Type} [Inhabited α] :
    ∀ (l : List α) (n : Nat) (a : α) (t : List α),
      l.drop n = a :: t → l.getD n default = a := by
  intro l
  induction l with
  | nil => intro n a t h; rw [List.drop_nil] at h; cases h
  | cons x xs ih =>
    intro n a t h
    cases n with
    | zero =>
      rw [List.drop_zero] at h
      cases h
      rfl
    | succ n =>
      rw [List.drop_succ_cons] at h
      simpa using ih n a t h

section InvLemmas

variable {od cd : Char} {runs : List Run} {db : List Char} {ri : Nat} {r : Run}

theorem FragInv_mono {i j : Nat} {f : PlaceholderFragment} (hij : i ≤ j)
    (h : FragInv od cd runs db ri i f) : FragInv od cd runs db ri j f := by
  obtain ⟨h0, he, hle, hlt, hcur, hspan⟩ := h
  refine ⟨h0, he, hle, hlt, fun hr => ?_, hspan⟩
  have := hcur hr
  have hc : (i : Int) ≤ (j : Int) := by exact_mod_cast hij
  omega

theorem FragInv_next {i j : Nat} {f : PlaceholderFragment}
    (h : FragInv od cd runs db ri i f) : FragInv od cd runs db (ri + 1) j f := by
  obtain ⟨h0, he, hle, hlt, hcur, hspan⟩ := h
  exact ⟨h0, he, Nat.le_succ_of_le hle, hlt, fun hr => absurd hr (by omega), hspan⟩

theorem FragInv_span {i : Nat} {f : PlaceholderFragment}
    (h : FragInv od cd runs db ri i f) (hfree : DelimFree od cd (textOf runs db ri)) :
    FragInv od cd runs db ri i { f with SpanRun := f.SpanRun ++ [ri] } := by
  obtain ⟨h0, he, hle, hlt, hcur, hspan⟩ := h
  refine ⟨h0, he, hle, hlt, hcur, ?_⟩
  intro sr hsr
  rcases List.mem_append.mp hsr with hsr | hsr
  · exact hspan sr hsr
  · rcases List.mem_singleton.mp hsr with rfl
    exact hfree

theorem scanChars_inv (htext : textOf runs db ri = r.GetText db) :
    ∀ (cs : List Char) (i : Nat) (st : ScanState) (hd : Bool),
      (r.GetText db).drop i = cs →
      (∀ f ∈ st.stack, FragInv od cd runs db ri i f) →
      (∀ p ∈ st.placeholders, GoodP od cd runs db p) →
      (∀ f ∈ (scanChars od cd runs db ri r i cs st hd).1.stack,
          FragInv od cd runs db ri (i + cs.length) f) ∧
      (∀ p ∈ (scanChars od cd runs db ri r i cs st hd).1.placeholders,
          GoodP od cd runs db p) := by
  intro cs
  induction cs with
  | nil =>
    intro i st hd _ hstack hpls
    rw [scanChars_nil]
    exact ⟨fun f hf => by simpa using hstack f hf, hpls⟩
  | cons c cs ih =>
    intro i st hd hdrop hstack hpls
    have hlen : i < (r.GetText db).length := by
      have hL := congrArg List.length hdrop
      rw [List.length_drop] at hL
      simp only [List.length_cons] at hL
      omega
    have hget : (r.GetText db)[i]? = some c := by
      have h2 := List.getElem?_drop (r.GetText db) i 0
      rw [hdrop, Nat.add_zero] at h2
      simpa using h2.symm
    have hdrop2 : (r.GetText db).drop (i + 1) = cs := by
      have h2 : (r.GetText db).drop (i + 1) = ((r.GetText db).drop i).drop 1 := by
        rw [List.drop_drop, Nat.add_comm]
      rw [h2, hdrop]
      rfl
    have hgoal_len : i + (c :: cs).length = (i + 1) + cs.length := by
      simp only [List.length_cons]; omega
    rw [hgoal_len]
    by_cases h1 : c = od
    · rw [scanChars_cons, processChar_open h1]
      dsimp only
      refine ih (i + 1) _ true hdrop2 ?_ hpls
      intro f hf
      rcases List.mem_cons.mp hf with rfl | hf
      · refine ⟨Int.natCast_nonneg i, rfl, le_refl ri, ?_, ?_, ?_⟩
        · show (i : Int) < ((textOf runs db ri).length : Int)
          rw [htext]; exact_mod_cast hlen
        · intro _
          show (i : Int) < ((i + 1 : Nat) : Int)
          push_cast; omega
        · intro sr hsr; exact absurd hsr (by simp [NewPlaceholderFragment])
      · exact FragInv_mono (Nat.le_succ i) (hstack f hf)
    · by_cases h2 : c = cd
      · cases hst : st.stack with
        | nil =>
          rw [scanChars_cons, processChar_close_nil h1 h2 hst]
          dsimp only
          refine ih (i + 1) _ hd hdrop2 ?_ hpls
          intro f hf
          have hg : f ∈ st.stack := hf
          rw [hst] at hg
          cases hg
        | cons fr rest =>
          have hfr := hstack fr (by rw [hst]; exact List.mem_cons_self fr rest)
          obtain ⟨hfr0, hfrE, hfrle, hfrlt, hfrcur, hfrspan⟩ := hfr
          have hstack2 : ∀ f ∈ rest, FragInv od cd runs db ri (i + 1) f := by
            intro f hf
            exact FragInv_mono (Nat.le_succ i)
              (hstack f (by rw [hst]; exact List.mem_cons_of_mem fr hf))
          by_cases h3 : fr.runIdx = ri
          · rw [scanChars_cons, processChar_close_same h1 h2 hst h3]
            dsimp only
            refine ih (i + 1) _ true hdrop2 hstack2 ?_
            intro p hp
            rcases List.mem_append.mp hp with hp | hp
            · exact hpls p hp
            · rcases List.mem_singleton.mp hp with rfl
              left
              refine ⟨_, rfl, hfr0, ?_⟩
              have hcur := hfrcur h3
              show fr.Position.Start < (i : Int) + 1
              omega
          · rw [scanChars_cons, processChar_close_cross h1 h2 hst h3]
            dsimp only
            refine ih (i + 1) _ true hdrop2 hstack2 ?_
            intro p hp
            rcases List.mem_append.mp hp with hp | hp
            · exact hpls p hp
            · rcases List.mem_singleton.mp hp with rfl
              right
              refine ⟨_, _, _, rfl, h3, hfr0, ?_, rfl, ?_, rfl, ?_, ?_, ?_⟩
              · exact hfrlt
              · intro m hm
                obtain ⟨sr, hsr, rfl⟩ := List.mem_map.mp hm
                exact ⟨rfl, rfl, hfrspan sr hsr⟩
              · show (0 : Int) < (i : Int) + 1
                omega
              · show (i : Int) + 1 ≤ ((textOf runs db ri).length : Int)
                rw [htext]; omega
              · show (textOf runs db ri)[((i : Int) + 1).toNat - 1]? = some cd
                have ht : ((i : Int) + 1).toNat - 1 = i := by omega
                rw [ht, htext, ← h2]
                exact hget
      · rw [scanChars_cons, processChar_other h1 h2]
        dsimp only
        exact ih (i + 1) st hd hdrop2
          (fun f hf => FragInv_mono (Nat.le_succ i) (hstack f hf)) hpls

end InvLemmas

section OuterInv

variable {od cd : Char} {runs : List Run} {db : List Char}

theorem processRun_inv {ri : Nat} {r : Run} (htext : textOf runs db ri = r.GetText db)
    (st : ScanState)
    (hstack : ∀ f ∈ st.stack, FragInv od cd runs db ri 0 f)
    (hpls : ∀ p ∈ st.placeholders, GoodP od cd runs db p) :
    (∀ f ∈ (processRun od cd runs db ri r st).stack,
        FragInv od cd runs db (ri + 1) 0 f) ∧
    (∀ p ∈ (processRun od cd runs db ri r st).placeholders, GoodP od cd runs db p) := by
  have hin := scanChars_inv htext (r.GetText db) 0 st false rfl hstack hpls
  unfold processRun
  by_cases hb : (scanChars od cd runs db ri r 0 (r.GetText db) st false).2 = true
  · simp only [hb, if_true]
    exact ⟨fun f hf => FragInv_next (hin.1 f hf), hin.2⟩
  · have hbf : (scanChars od cd runs db ri r 0 (r.GetText db) st false).2 = false := by
      simpa using hb
    obtain ⟨hs, hpl, hfree⟩ := scanChars_false (r.GetText db) 0 st hbf
    simp only [hbf, Bool.false_eq_true, if_false]
    constructor
    · intro f hf
      simp only [List.mem_map] at hf
      obtain ⟨g, hg, rfl⟩ := hf
      rw [hs] at hg
      have hgi := hstack g hg
      have hfree2 : DelimFree od cd (textOf runs db ri) := by
        rw [htext]
        exact hfree (List.ne_nil_of_mem hg)
      exact FragInv_next (FragInv_span hgi hfree2)
    · exact hin.2

theorem scanRunsAux_inv :
    ∀ (rs : List Run) (k : Nat) (st : ScanState),
      runs.drop k = rs →
      (∀ f ∈ st.stack, FragInv od cd runs db k 0 f) →
      (∀ p ∈ st.placeholders, GoodP od cd runs db p) →
      (∀ f ∈ (scanRunsAux od cd runs db k rs st).stack,
          FragInv od cd runs db (k + rs.length) 0 f) ∧
      (∀ p ∈ (scanRunsAux od cd runs db k rs st).placeholders,
          GoodP od cd runs db p) := by
  intro rs
  induction rs with
  | nil =>
    intro k st _ hstack hpls
    exact ⟨fun f hf => by simpa using hstack f hf, hpls⟩
  | cons r0 rs ih =>
    intro k st hdrop hstack hpls
    have htext : textOf runs db k = r0.GetText db := by
      unfold textOf
      rw [getD_of_drop runs k r0 rs hdrop]
    have hdrop2 : runs.drop (k + 1) = rs := by
      have h2 : runs.drop (k + 1) = (runs.drop k).drop 1 := by
        rw [List.drop_drop, Nat.add_comm]
      rw [h2, hdrop]
      rfl
    have hlen : k + (r0 :: rs).length = (k + 1) + rs.length := by
      simp only [List.length_cons]; omega
    rw [hlen]
    simp only [scanRunsAux]
    have hpr := processRun_inv htext st hstack hpls
    exact ih (k + 1) _ hdrop2 hpr.1 hpr.2

end OuterInv

/-- **C3**: structural invariant of every emitted placeholder: it has at
least one fragment; it has exactly one fragment iff its first and last
fragments lie in the same run (open and close matched in one run); and
when it has more than one fragment, the first fragment ends at its run's
full text length, every middle fragment covers its run's entire text
(`Position {0, length}`), and the last fragment starts at 0 and ends one
past a close delimiter of its run. -/
theorem c3_fragment_shape (od cd : Char) (runs : List Run) (db : List Char) :
    ∀ p ∈ (ParsePlaceholders od cd runs db).1,
      p.Fragments ≠ [] ∧
      (p.Fragments.length = 1 ↔
        (p.Fragments.headD default).runIdx = (p.Fragments.getLastD default).runIdx) ∧
      (1 < p.Fragments.length →
        (p.Fragments.headD default).Position.End =
          ((textOf runs db (p.Fragments.headD default).runIdx).length : Int) ∧
        (∀ m ∈ (p.Fragments.drop 1).dropLast,
            m.Position.Start = 0 ∧
            m.Position.End = ((textOf runs db m.runIdx).length : Int)) ∧
        (p.Fragments.getLastD default).Position.Start = 0 ∧
        0 < (p.Fragments.getLastD default).Position.End ∧
        (textOf runs db
            (p.Fragments.getLastD default).runIdx)[
          (p.Fragments.getLastD default).Position.End.toNat - 1]? = some cd) := by
  intro p hp
  have hg := (@scanRunsAux_inv od cd runs db
    runs 0 ⟨[], [], []⟩ rfl (by simp) (by simp)).2 p hp
  rcases hg with ⟨f, hf, h0, hlt⟩ | ⟨f0, mids, fl, hf, hne, h00, h0lt, h0end, hmids, hfl0, hflpos, hflle, hflchar⟩
  · rw [hf]
    refine ⟨by simp, by simp, ?_⟩
    intro h
    simp at h
  · rw [hf]
    have hlast : ((f0 :: mids) ++ [fl]).getLastD default = fl := by
      simp [List.getLast?_cons, List.getLastD_concat]
    have hhead : ((f0 :: mids) ++ [fl]).headD default = f0 := rfl
    have hdrop1 : (((f0 :: mids) ++ [fl]).drop 1).dropLast = mids := by
      rw [List.cons_append, List.drop_succ_cons, List.drop_zero]
      exact List.dropLast_concat
    have hlen : ((f0 :: mids) ++ [fl]).length = mids.length + 2 := by
      simp
    refine ⟨by simp, ?_, ?_⟩
    · rw [hlen, hhead, hlast]
      constructor
      · intro h; omega
      · intro h; exact absurd h hne
    · intro _
      rw [hhead, hlast, hdrop1]
      exact ⟨h0end, fun m hm => ⟨(hmids m hm).1, (hmids m hm).2.1⟩, hfl0, hflpos, hflchar⟩

/-- Witness for C3 at a three-run input with one cross-run placeholder. -/
theorem c3_witness :
    (⟨[⟨⟨1, 3⟩, 0, [1]⟩, ⟨⟨0, 2⟩, 1, []⟩, ⟨⟨0, 2⟩, 2, []⟩]⟩ : Placeholder) ∈
      (ParsePlaceholders '{' '}' [⟨0, 0, 3⟩, ⟨1, 3, 2⟩, ⟨2, 5, 3⟩]
        ['x', '{', 'a', 'b', 'b', 'c', '}', 'y']).1 ∧
    (⟨[⟨⟨1, 3⟩, 0, [1]⟩, ⟨⟨0, 2⟩, 1, []⟩, ⟨⟨0, 2⟩, 2, []⟩]⟩ : Placeholder).Fragments ≠ [] :=
  ⟨by decide,
    (c3_fragment_shape '{' '}' [⟨0, 0, 3⟩, ⟨1, 3, 2⟩, ⟨2, 5, 3⟩]
      ['x', '{', 'a', 'b', 'b', 'c', '}', 'y']
      ⟨[⟨⟨1, 3⟩, 0, [1]⟩, ⟨⟨0, 2⟩, 1, []⟩, ⟨⟨0, 2⟩, 2, []⟩]⟩ (by decide)).1⟩

/-- **C9**: span runs are always delimiter-free: every middle fragment of
every emitted placeholder (one per absorbed span run) lies on a run whose
text contains neither delimiter, and every run recorded in the `SpanRun`
list of a fragment still on the stack at end of scan is likewise
delimiter-free. In particular a run in which a close delimiter was
matched, or which contains an unmatched close while a fragment from the
same run is on the stack, is never absorbed as a span run. -/
theorem c9_span_runs_delimiter_free (od cd : Char) (runs : List Run) (db : List Char) :
    (∀ p ∈ (ParsePlaceholders od cd runs db).1,
        ∀ m ∈ (p.Fragments.drop 1).dropLast,
          DelimFree od cd (textOf runs db m.runIdx)) ∧
    (∀ f ∈ (scanRunsAux od cd runs db 0 runs ⟨[], [], []⟩).stack,
        ∀ sr ∈ f.SpanRun, DelimFree od cd (textOf runs db sr)) := by
  have hinv := @scanRunsAux_inv od cd runs db
    runs 0 ⟨[], [], []⟩ rfl (by simp) (by simp)
  constructor
  · intro p hp m hm
    have hg := hinv.2 p hp
    rcases hg with ⟨f, hf, -, -⟩ |
      ⟨f0, mids, fl, hf, -, -, -, -, hmids, -, -, -, -⟩
    · rw [hf] at hm
      simp at hm
    · rw [hf] at hm
      have hdrop1 : (((f0 :: mids) ++ [fl]).drop 1).dropLast = mids := by
        rw [List.cons_append, List.drop_succ_cons, List.drop_zero]
        exact List.dropLast_concat
      rw [hdrop1] at hm
      exact (hmids m hm).2.2
  · intro f hf sr hsr
    have hi := hinv.1 f hf
    exact hi.2.2.2.2.2 sr hsr

/-- Witness for C9: the absorbed middle run `bb` of the cross-run
placeholder `{abbc}` is delimiter-free. -/
theorem c9_witness :
    (⟨[⟨⟨1, 3⟩, 0, [1]⟩, ⟨⟨0, 2⟩, 1, []⟩, ⟨⟨0, 2⟩, 2, []⟩]⟩ : Placeholder) ∈
      (ParsePlaceholders '{' '}' [⟨0, 0, 3⟩, ⟨1, 3, 2⟩, ⟨2, 5, 3⟩]
        ['x', '{', 'a', 'b', 'b', 'c', '}', 'y']).1 ∧
    (⟨⟨0, 2⟩, 1, []⟩ : PlaceholderFragment) ∈
      (((⟨[⟨⟨1, 3⟩, 0, [1]⟩, ⟨⟨0, 2⟩, 1, []⟩, ⟨⟨0, 2⟩, 2, []⟩]⟩ :
          Placeholder).Fragments.drop 1).dropLast) ∧
    DelimFree '{' '}'
      (textOf [⟨0, 0, 3⟩, ⟨1, 3, 2⟩, ⟨2, 5, 3⟩]
        ['x', '{', 'a', 'b', 'b', 'c', '}', 'y'] 1) :=
  ⟨by decide, by decide,
    (c9_span_runs_delimiter_free '{' '}' [⟨0, 0, 3⟩, ⟨1, 3, 2⟩, ⟨2, 5, 3⟩]
        ['x', '{', 'a', 'b', 'b', 'c', '}', 'y']).1
      ⟨[⟨⟨1, 3⟩, 0, [1]⟩, ⟨⟨0, 2⟩, 1, []⟩, ⟨⟨0, 2⟩, 2, []⟩]⟩ (by decide)
      ⟨⟨0, 2⟩, 1, []⟩ (by decide)⟩

/-- **C10**: no unfinished fragment escapes: every fragment of every
returned placeholder has an assigned end (the sentinel `-1` never
appears), satisfies `0 ≤ Start ≤ End`, with `Start < End` strictly for
the first and last fragments, while every middle span-run fragment has
`Start = 0` and `End` equal to its run's text length (so `Start = End`
only for an empty span-run text). -/
theorem c10_no_unfinished_fragment (od cd : Char) (runs : List Run) (db : List Char) :
    ∀ p ∈ (ParsePlaceholders od cd runs db).1,
      p.Fragments ≠ [] ∧
      (∀ f ∈ p.Fragments, f.Position.End ≠ -1 ∧ 0 ≤ f.Position.Start ∧
          f.Position.Start ≤ f.Position.End) ∧
      (p.Fragments.headD default).Position.Start <
        (p.Fragments.headD default).Position.End ∧
      (p.Fragments.getLastD default).Position.Start <
        (p.Fragments.getLastD default).Position.End ∧
      (∀ m ∈ (p.Fragments.drop 1).dropLast,
          m.Position.Start = 0 ∧
          m.Position.End = ((textOf runs db m.runIdx).length : Int)) := by
  intro p hp
  have hg := (@scanRunsAux_inv od cd runs db
    runs 0 ⟨[], [], []⟩ rfl (by simp) (by simp)).2 p hp
  rcases hg with ⟨f, hf, h0, hlt⟩ |
    ⟨f0, mids, fl, hf, hne, h00, h0lt, h0end, hmids, hfl0, hflpos, hflle, hflchar⟩
  · rw [hf]
    refine ⟨by simp, ?_, hlt, hlt, ?_⟩
    · intro g hg2
      rcases List.mem_singleton.mp hg2 with rfl
      exact ⟨by omega, h0, by omega⟩
    · intro m hm
      simp at hm
  · rw [hf]
    have hlast : ((f0 :: mids) ++ [fl]).getLastD default = fl := by
      simp [List.getLast?_cons, List.getLastD_concat]
    have hhead : ((f0 :: mids) ++ [fl]).headD default = f0 := rfl
    have hdrop1 : (((f0 :: mids) ++ [fl]).drop 1).dropLast = mids := by
      rw [List.cons_append, List.drop_succ_cons, List.drop_zero]
      exact List.dropLast_concat
    rw [hlast, hhead, hdrop1]
    refine ⟨by simp, ?_, by omega, by omega, ?_⟩
    · intro g hg2
      rcases List.mem_append.mp hg2 with hg2 | hg2
      · rcases List.mem_cons.mp hg2 with rfl | hg2
        · have hc : (0 : Int) ≤ ((textOf runs db g.runIdx).length : Int) :=
            Int.natCast_nonneg _
          rw [h0end]
          exact ⟨by omega, h00, by rw [← h0end]; omega⟩
        · obtain ⟨hm1, hm2, -⟩ := hmids g hg2
          have hc : (0 : Int) ≤ ((textOf runs db g.runIdx).length : Int) :=
            Int.natCast_nonneg _
          rw [hm1, hm2]
          exact ⟨by omega, by omega, by omega⟩
      · rcases List.mem_singleton.mp hg2 with rfl
        rw [hfl0]
        exact ⟨by omega, by omega, by omega⟩
    · intro m hm
      exact ⟨(hmids m hm).1, (hmids m hm).2.1⟩

/-- Witness for C10 at the cross-run input. -/
theorem c10_witness :
    (⟨[⟨⟨1, 3⟩, 0, [1]⟩, ⟨⟨0, 2⟩, 1, []⟩, ⟨⟨0, 2⟩, 2, []⟩]⟩ : Placeholder) ∈
      (ParsePlaceholders '{' '}' [⟨0, 0, 3⟩, ⟨1, 3, 2⟩, ⟨2, 5, 3⟩]
        ['x', '{', 'a', 'b', 'b', 'c', '}', 'y']).1 ∧
    (⟨[⟨⟨1, 3⟩, 0, [1]⟩, ⟨⟨0, 2⟩, 1, []⟩, ⟨⟨0, 2⟩, 2, []⟩]⟩ : Placeholder).Fragments ≠ [] :=
  ⟨by decide,
    (c10_no_unfinished_fragment '{' '}' [⟨0, 0, 3⟩, ⟨1, 3, 2⟩, ⟨2, 5, 3⟩]
      ['x', '{', 'a', 'b', 'b', 'c', '}', 'y']
      ⟨[⟨⟨1, 3⟩, 0, [1]⟩, ⟨⟨0, 2⟩, 1, []⟩, ⟨⟨0, 2⟩, 2, []⟩]⟩ (by decide)).1⟩

/-! ## Cross-run reconstruction (C2) -/

section CrossRun

variable {od cd : Char} {runs : List Run} {db : List Char} {ri : Nat} {r : Run}

theorem scanChars_append :
    ∀ (xs ys : List Char) (i : Nat) (st : ScanState) (hd : Bool),
      scanChars od cd runs db ri r i (xs ++ ys) st hd =
        scanChars od cd runs db ri r (i + xs.length) ys
          (scanChars od cd runs db ri r i xs st hd).1
          (scanChars od cd runs db ri r i xs st hd).2 := by
  intro xs
  induction xs with
  | nil => intro ys i st hd; simp [scanChars_nil]
  | cons x xs ih =>
    intro ys i st hd
    rw [List.cons_append, scanChars_cons, scanChars_cons, ih]
    rw [show i + (x :: xs).length = (i + 1) + xs.length by simp [List.length_cons]; omega]

theorem scanRunsAux_append :
    ∀ (xs ys : List Run) (k : Nat) (st : ScanState),
      scanRunsAux od cd runs db k (xs ++ ys) st =
        scanRunsAux od cd runs db (k + xs.length) ys
          (scanRunsAux od cd runs db k xs st) := by
  intro xs
  induction xs with
  | nil => intro ys k st; simp [scanRunsAux]
  | cons x xs ih =>
    intro ys k st
    rw [List.cons_append]
    simp only [scanRunsAux]
    rw [ih]
    rw [show k + (x :: xs).length = (k + 1) + xs.length by simp [List.length_cons]; omega]

theorem spanExtend_nil :
    ∀ (l : List PlaceholderFragment),
      l.map (fun f => { f with SpanRun := f.SpanRun ++ [] }) = l := by
  intro l
  induction l with
  | nil => rfl
  | cons x xs ih =>
    rw [List.map_cons, ih]
    cases x
    simp

theorem spanExtend_comp :
    ∀ (l : List PlaceholderFragment) (k n : Nat),
      (l.map (fun f => { f with SpanRun := f.SpanRun ++ [k] })).map
          (fun f => { f with SpanRun := f.SpanRun ++ List.range' (k + 1) n }) =
        l.map (fun f => { f with SpanRun := f.SpanRun ++ List.range' k (n + 1) }) := by
  intro l k n
  rw [List.map_map]
  apply List.map_congr_left
  intro f _
  cases f
  simp [List.range']

theorem scanRunsAux_spanAbsorb :
    ∀ (rs : List Run) (k : Nat) (st : ScanState),
      (∀ B ∈ rs, DelimFree od cd (B.GetText db)) →
      scanRunsAux od cd runs db k rs st =
        ⟨st.stack.map (fun f =>
            { f with SpanRun := f.SpanRun ++ List.range' k rs.length }),
          st.placeholders, st.diags⟩ := by
  intro rs
  induction rs with
  | nil =>
    intro k st _
    show st = _
    rw [show List.range' k ([] : List Run).length = [] from rfl, spanExtend_nil]
  | cons B rs ih =>
    intro k st hfree
    simp only [scanRunsAux]
    have hB : processRun od cd runs db k B st =
        ⟨st.stack.map (fun f => { f with SpanRun := f.SpanRun ++ [k] }),
          st.placeholders, st.diags⟩ := by
      unfold processRun
      rw [scanChars_delimFree _ _ _ _ (hfree B (List.mem_cons_self B rs))]
      rfl
    rw [hB, ih (k + 1) _ (fun B2 hB2 => hfree B2 (List.mem_cons_of_mem B hB2))]
    show ScanState.mk _ _ _ = ScanState.mk _ _ _
    rw [show (B :: rs).length = rs.length + 1 from rfl]
    rw [spanExtend_comp]

end CrossRun

section SliceLemmas

variable {db : List Char}

theorem sliceBytes_getText (r0 : Run) (s e : Int)
    (hs : 0 ≤ s) (hse : s ≤ e) (he : e ≤ ((r0.GetText db).length : Int)) :
    sliceBytes db ((r0.textStart : Int) + s) ((r0.textStart : Int) + e) =
      ((r0.GetText db).drop s.toNat).take (e.toNat - s.toNat) := by
  have hlen : (r0.GetText db).length ≤ r0.textLen := List.length_take_le _ _
  have he2 : e.toNat ≤ r0.textLen := by omega
  unfold sliceBytes Run.GetText
  have h1 : ((r0.textStart : Int) + s).toNat = r0.textStart + s.toNat := by omega
  have h2 : ((r0.textStart : Int) + e).toNat - ((r0.textStart : Int) + s).toNat
      = e.toNat - s.toNat := by omega
  rw [h2, h1, List.drop_take, List.take_take, List.drop_drop]
  congr 1
  omega

theorem textOf_range :
    ∀ (rs : List Run) (k : Nat) (runs post : List Run),
      runs.drop k = rs ++ post →
      (List.range' k rs.length).map (fun j => textOf runs db j) =
        rs.map (fun B => B.GetText db) := by
  intro rs
  induction rs with
  | nil => intro k runs post _; rfl
  | cons B rs ih =>
    intro k runs post hdrop
    rw [List.cons_append] at hdrop
    have hdrop2 : runs.drop (k + 1) = rs ++ post := by
      have h2 : runs.drop (k + 1) = (runs.drop k).drop 1 := by
        rw [List.drop_drop, Nat.add_comm]
      rw [h2, hdrop]
      rfl
    rw [show (B :: rs).length = rs.length + 1 from rfl,
      show List.range' k (rs.length + 1) = k :: List.range' (k + 1) rs.length from rfl,
      List.map_cons, List.map_cons, ih (k + 1) runs post hdrop2]
    have htB : textOf runs db k = B.GetText db := by
      unfold textOf
      rw [getD_of_drop runs k B (rs ++ post) hdrop]
    rw [htB]

end SliceLemmas

section SliceAll

variable {db : List Char}

theorem sliceBytes_all (r0 : Run) :
    sliceBytes db ((r0.textStart : Int) + 0)
      ((r0.textStart : Int) + ((r0.GetText db).length : Int)) = r0.GetText db := by
  rw [sliceBytes_getText r0 0 ((r0.GetText db).length : Int) (le_refl 0)
    (Int.natCast_nonneg _) (le_refl _)]
  simp

end SliceAll

/-- **C2**: cross-run reconstruction. First conjunct: a maximal block of
delimiter-free runs is appended, in order, to the `SpanRun` list of every
fragment open on the stack, leaving placeholders and diagnostics alone.
Second conjunct: for a placeholder whose open delimiter lies in run `A`
and whose close delimiter lies in run `C`, with every intervening run
delimiter-free, the parse yields exactly that placeholder, its `Text` is
the concatenation of `A`'s text from the open delimiter through `A`'s
end, the full text of every intervening run in order, and `C`'s text
from offset 0 through the close delimiter inclusive — delimiters
included — and the open fragment has recorded exactly the intervening
runs as span runs, one middle fragment each. -/
theorem c2_cross_run_reconstruction :
    (∀ (od cd : Char) (runs rs : List Run) (db : List Char) (k : Nat) (st : ScanState),
        (∀ B ∈ rs, DelimFree od cd (B.GetText db)) →
        scanRunsAux od cd runs db k rs st =
          ⟨st.stack.map (fun f =>
              { f with SpanRun := f.SpanRun ++ List.range' k rs.length }),
            st.placeholders, st.diags⟩) ∧
    (∀ (od cd : Char) (A C : Run) (Bs : List Run) (db : List Char)
        (a1 a2 c1 c2 : List Char),
        od ≠ cd →
        A.GetText db = a1 ++ od :: a2 →
        DelimFree od cd a1 → DelimFree od cd a2 →
        (∀ B ∈ Bs, DelimFree od cd (B.GetText db)) →
        C.GetText db = c1 ++ cd :: c2 →
        DelimFree od cd c1 → DelimFree od cd c2 →
        ∃ p, (ParsePlaceholders od cd (A :: (Bs ++ [C])) db).1 = [p] ∧
          p.Text (A :: (Bs ++ [C])) db =
            (od :: a2) ++ (Bs.map (fun B => B.GetText db)).flatten ++ c1 ++ [cd] ∧
          (p.Fragments.headD default).SpanRun = List.range' 1 Bs.length ∧
          p.Fragments.length = Bs.length + 2 ∧
          ((p.Fragments.drop 1).dropLast).map (fun f => f.runIdx) =
            List.range' 1 Bs.length) := by
  constructor
  · intro od cd runs rs db k st hfree
    exact scanRunsAux_spanAbsorb rs k st hfree
  · intro od cd A C Bs db a1 a2 c1 c2 hne hA hfa1 hfa2 hfBs hC hfc1 hfc2
    have hcdne : cd ≠ od := fun h => hne h.symm
    have hA1 : scanChars od cd (A :: (Bs ++ [C])) db 0 A 0 (A.GetText db)
        ⟨[], [], []⟩ false
        = (⟨[⟨⟨(a1.length : Int), -1⟩, 0, []⟩], [], []⟩, true) := by
      rw [hA, scanChars_append,
        scanChars_delimFree a1 0 ⟨[], [], []⟩ false hfa1]
      dsimp only
      simp only [Nat.zero_add]
      rw [scanChars_cons, processChar_open rfl]
      dsimp only
      rw [scanChars_delimFree a2 _ _ _ hfa2]
      rfl
    have hPA : processRun od cd (A :: (Bs ++ [C])) db 0 A ⟨[], [], []⟩
        = ⟨[⟨⟨(a1.length : Int), -1⟩, 0, []⟩], [], []⟩ := by
      unfold processRun
      rw [hA1]
      rfl
    have hSpan : scanRunsAux od cd (A :: (Bs ++ [C])) db 1 Bs
        ⟨[⟨⟨(a1.length : Int), -1⟩, 0, []⟩], [], []⟩
        = ⟨[⟨⟨(a1.length : Int), -1⟩, 0, List.range' 1 Bs.length⟩], [], []⟩ := by
      rw [scanRunsAux_spanAbsorb Bs 1 _ hfBs]
      rfl
    have h3C : (⟨⟨(a1.length : Int), -1⟩, 0,
        List.range' 1 Bs.length⟩ : PlaceholderFragment).runIdx ≠ 1 + Bs.length := by
      show (0 : Nat) ≠ 1 + Bs.length
      omega
    have hC1 : scanChars od cd (A :: (Bs ++ [C])) db (1 + Bs.length) C 0 (C.GetText db)
        ⟨[⟨⟨(a1.length : Int), -1⟩, 0, List.range' 1 Bs.length⟩], [], []⟩ false
        = (⟨[], [⟨⟨⟨(a1.length : Int), ((A.GetText db).length : Int)⟩, 0,
              List.range' 1 Bs.length⟩ ::
            ((List.range' 1 Bs.length).map (fun si =>
                ⟨⟨0, ((textOf (A :: (Bs ++ [C])) db si).length : Int)⟩, si, []⟩) ++
              [⟨⟨0, (c1.length : Int) + 1⟩, 1 + Bs.length, []⟩])⟩], []⟩, true) := by
      rw [hC, scanChars_append,
        scanChars_delimFree c1 0 _ false hfc1]
      dsimp only
      simp only [Nat.zero_add]
      rw [scanChars_cons, processChar_close_cross hcdne rfl rfl h3C]
      dsimp only
      rw [scanChars_delimFree c2 _ _ _ hfc2]
      rfl
    have hPC : processRun od cd (A :: (Bs ++ [C])) db (1 + Bs.length) C
        ⟨[⟨⟨(a1.length : Int), -1⟩, 0, List.range' 1 Bs.length⟩], [], []⟩
        = ⟨[], [⟨⟨⟨(a1.length : Int), ((A.GetText db).length : Int)⟩, 0,
              List.range' 1 Bs.length⟩ ::
            ((List.range' 1 Bs.length).map (fun si =>
                ⟨⟨0, ((textOf (A :: (Bs ++ [C])) db si).length : Int)⟩, si, []⟩) ++
              [⟨⟨0, (c1.length : Int) + 1⟩, 1 + Bs.length, []⟩])⟩], []⟩ := by
      unfold processRun
      rw [hC1]
      rfl
    have hmain : scanRunsAux od cd (A :: (Bs ++ [C])) db 0 (A :: (Bs ++ [C]))
        ⟨[], [], []⟩
        = ⟨[], [⟨⟨⟨(a1.length : Int), ((A.GetText db).length : Int)⟩, 0,
              List.range' 1 Bs.length⟩ ::
            ((List.range' 1 Bs.length).map (fun si =>
                ⟨⟨0, ((textOf (A :: (Bs ++ [C])) db si).length : Int)⟩, si, []⟩) ++
              [⟨⟨0, (c1.length : Int) + 1⟩, 1 + Bs.length, []⟩])⟩], []⟩ := by
      rw [show scanRunsAux od cd (A :: (Bs ++ [C])) db 0 (A :: (Bs ++ [C])) ⟨[], [], []⟩ =
          scanRunsAux od cd (A :: (Bs ++ [C])) db 1 (Bs ++ [C])
            (processRun od cd (A :: (Bs ++ [C])) db 0 A ⟨[], [], []⟩) from rfl]
      rw [hPA, scanRunsAux_append Bs [C] 1 _, hSpan]
      rw [show scanRunsAux od cd (A :: (Bs ++ [C])) db (1 + Bs.length) [C]
          (⟨[⟨⟨(a1.length : Int), -1⟩, 0, List.range' 1 Bs.length⟩], [], []⟩ : ScanState) =
          processRun od cd (A :: (Bs ++ [C])) db (1 + Bs.length) C
            ⟨[⟨⟨(a1.length : Int), -1⟩, 0, List.range' 1 Bs.length⟩], [], []⟩ from rfl]
      exact hPC
    refine ⟨⟨⟨⟨(a1.length : Int), ((A.GetText db).length : Int)⟩, 0,
          List.range' 1 Bs.length⟩ ::
        ((List.range' 1 Bs.length).map (fun si =>
            ⟨⟨0, ((textOf (A :: (Bs ++ [C])) db si).length : Int)⟩, si, []⟩) ++
          [⟨⟨0, (c1.length : Int) + 1⟩, 1 + Bs.length, []⟩])⟩, ?_, ?_, ?_, ?_, ?_⟩
    · show (scanRunsAux od cd (A :: (Bs ++ [C])) db 0 (A :: (Bs ++ [C]))
        ⟨[], [], []⟩).placeholders = _
      rw [hmain]
    · -- Text computation
      unfold Placeholder.Text
      simp only [List.map_cons, List.map_append,
        List.flatten_cons, List.flatten_append]
      have hgA : (A :: (Bs ++ [C])).getD 0 default = A := rfl
      have hgC : (A :: (Bs ++ [C])).getD (1 + Bs.length) default = C := by
        apply getD_of_drop (A :: (Bs ++ [C])) (1 + Bs.length) C []
        rw [show (A :: (Bs ++ [C])).drop (1 + Bs.length) =
            (Bs ++ [C]).drop Bs.length from by
          rw [show 1 + Bs.length = Bs.length + 1 by omega]
          rfl]
        rw [List.drop_left]
      have hlenA : (A.GetText db).length = a1.length + (a2.length + 1) := by
        rw [hA]
        simp
      have hf0 : sliceBytes db (((A :: (Bs ++ [C])).getD 0 default).textStart +
            ((a1.length : Nat) : Int))
          (((A :: (Bs ++ [C])).getD 0 default).textStart +
            (((A.GetText db).length : Nat) : Int)) = od :: a2 := by
        rw [hgA]
        rw [sliceBytes_getText A (a1.length : Int) ((A.GetText db).length : Int)
          (Int.natCast_nonneg _) (by exact_mod_cast by omega) (le_refl _)]
        simp only [Int.toNat_natCast]
        rw [hA, List.drop_left]
        rw [show (a1 ++ od :: a2).length - a1.length = (od :: a2).length by
          simp [List.length_append]]
        exact List.take_length _
      have hfl : sliceBytes db (((A :: (Bs ++ [C])).getD (1 + Bs.length) default).textStart +
            (0 : Int))
          (((A :: (Bs ++ [C])).getD (1 + Bs.length) default).textStart +
            ((c1.length : Int) + 1)) = c1 ++ [cd] := by
        rw [hgC]
        rw [show ((c1.length : Int) + 1) = (((c1.length + 1 : Nat)) : Int) by push_cast; ring]
        have hlenC : (C.GetText db).length = c1.length + (c2.length + 1) := by
          rw [hC]
          simp
        rw [sliceBytes_getText C 0 (((c1.length + 1 : Nat)) : Int) (le_refl 0)
          (Int.natCast_nonneg _) (by exact_mod_cast by omega)]
        simp only [Int.toNat_natCast, Int.toNat_zero, List.drop_zero, Nat.sub_zero]
        rw [hC, List.take_append_eq_append_take,
          List.take_of_length_le (by omega),
          show c1.length + 1 - c1.length = 1 by omega]
        rfl
      have hmid : ∀ si : Nat,
          sliceBytes db (((A :: (Bs ++ [C])).getD si default).textStart + (0 : Int))
            (((A :: (Bs ++ [C])).getD si default).textStart +
              ((textOf (A :: (Bs ++ [C])) db si).length : Int)) =
            textOf (A :: (Bs ++ [C])) db si := by
        intro si
        exact sliceBytes_all ((A :: (Bs ++ [C])).getD si default)
      rw [hf0, hfl]
      have hmids2 : List.map (fun f =>
            sliceBytes db
              ((((A :: (Bs ++ [C])).getD f.runIdx default).textStart : Int) +
                f.Position.Start)
              ((((A :: (Bs ++ [C])).getD f.runIdx default).textStart : Int) +
                f.Position.End))
          ((List.range' 1 Bs.length).map (fun si =>
            (⟨⟨0, ((textOf (A :: (Bs ++ [C])) db si).length : Int)⟩, si, []⟩ :
              PlaceholderFragment))) =
          Bs.map (fun B => B.GetText db) := by
        exact (List.map_map _ _ _).trans
          ((List.map_congr_left (fun si _ => hmid si)).trans
            (textOf_range Bs 1 (A :: (Bs ++ [C])) [C] rfl))
      rw [hmids2]
      simp [List.append_assoc]
    · rfl
    · simp [List.length_append]
    · rw [show ((⟨⟨⟨(a1.length : Int), ((A.GetText db).length : Int)⟩, 0,
              List.range' 1 Bs.length⟩ ::
            ((List.range' 1 Bs.length).map (fun si =>
                ⟨⟨0, ((textOf (A :: (Bs ++ [C])) db si).length : Int)⟩, si, []⟩) ++
              [⟨⟨0, (c1.length : Int) + 1⟩, 1 + Bs.length, []⟩])⟩ :
          Placeholder).Fragments.drop 1).dropLast =
          (List.range' 1 Bs.length).map (fun si =>
            (⟨⟨0, ((textOf (A :: (Bs ++ [C])) db si).length : Int)⟩, si, []⟩ :
              PlaceholderFragment)) from by
        rw [show ((⟨_ :: ((List.range' 1 Bs.length).map (fun si =>
            (⟨⟨0, ((textOf (A :: (Bs ++ [C])) db si).length : Int)⟩, si, []⟩ :
              PlaceholderFragment)) ++ [⟨⟨0, (c1.length : Int) + 1⟩, 1 + Bs.length, []⟩])⟩ :
            Placeholder).Fragments.drop 1) =
            (List.range' 1 Bs.length).map (fun si =>
              (⟨⟨0, ((textOf (A :: (Bs ++ [C])) db si).length : Int)⟩, si, []⟩ :
                PlaceholderFragment)) ++ [⟨⟨0, (c1.length : Int) + 1⟩, 1 + Bs.length, []⟩]
          from rfl]
        exact List.dropLast_concat]
      rw [List.map_map]
      rw [List.map_congr_left (fun si _ => rfl)]
      exact List.map_id _

/-- Witness for C2: runs `x{a | bb | c}y` yield the single cross-run
placeholder `{abbc}`. -/
theorem c2_witness :
    Run.GetText ⟨0, 0, 3⟩ ['x', '{', 'a', 'b', 'b', 'c', '}', 'y'] =
      ['x'] ++ '{' :: ['a'] ∧
    Run.GetText ⟨2, 5, 3⟩ ['x', '{', 'a', 'b', 'b', 'c', '}', 'y'] =
      ['c'] ++ '}' :: ['y'] ∧
    (∃ p, (ParsePlaceholders '{' '}'
          ((⟨0, 0, 3⟩ : Run) :: (([⟨1, 3, 2⟩] : List Run) ++ [⟨2, 5, 3⟩]))
          ['x', '{', 'a', 'b', 'b', 'c', '}', 'y']).1 = [p] ∧
      p.Text ((⟨0, 0, 3⟩ : Run) :: (([⟨1, 3, 2⟩] : List Run) ++ [⟨2, 5, 3⟩]))
          ['x', '{', 'a', 'b', 'b', 'c', '}', 'y'] =
        ('{' :: ['a']) ++
          (([⟨1, 3, 2⟩] : List Run).map
            (fun B => B.GetText ['x', '{', 'a', 'b', 'b', 'c', '}', 'y'])).flatten ++
          ['c'] ++ ['}'] ∧
      (p.Fragments.headD default).SpanRun =
        List.range' 1 ([⟨1, 3, 2⟩] : List Run).length ∧
      p.Fragments.length = ([⟨1, 3, 2⟩] : List Run).length + 2 ∧
      ((p.Fragments.drop 1).dropLast).map (fun f => f.runIdx) =
        List.range' 1 ([⟨1, 3, 2⟩] : List Run).length) :=
  ⟨by decide, by decide,
    c2_cross_run_reconstruction.2 '{' '}' ⟨0, 0, 3⟩ ⟨2, 5, 3⟩ [⟨1, 3, 2⟩]
      ['x', '{', 'a', 'b', 'b', 'c', '}', 'y'] ['x'] ['a'] ['c'] ['y']
      (by decide) (by decide) (by decide) (by decide) (by decide)
      (by decide) (by decide) (by decide)⟩
